import Mathlib

/-!
Verification of the hybrid-search fusion core of the `vectordbplugin`
repository (TypeScript client `SupabaseSemanticSearch` plus its SQL store
functions) against its natural-language specification.

Modelling conventions:
* JavaScript numbers are modelled as rationals (`Score := ℚ`); the claims
  under study are about exact algebraic structure, not float rounding.
* `Math.sqrt` (used only by z-score normalization) is modelled as an
  abstract function parameter `sqrtFn : Score → Score`, threaded through
  both the embedding of the code and the embedding of the spec text, so
  that statements never depend on a particular square-root realisation.
* `JSON.stringify` / `JSON.parse` over row payloads are modelled as
  abstract parameters `stringify : J → String` and `parse : String → J`
  over an arbitrary payload type `J`, exactly as the code uses them (keys
  of the merge maps are the serialised strings).
* JavaScript `Map` objects are modelled as association lists in insertion
  order: `set` overwrites the value of an existing key in place (keeping
  its original position) and appends a fresh key at the end; `Set`
  iteration keeps first-occurrence order.
* `Array.prototype.sort` with the comparator
  `(a, b) => b.hybrid_score - a.hybrid_score` is, by the ECMAScript
  specification, a stable descending sort on `hybrid_score`; the result of
  a stable sort under a total preorder is unique, so it is modelled by the
  stable insertion sort `sortDesc` below.
-/

namespace VectorPlugin

/-- Scores (JavaScript numbers) are modelled as rationals. -/
abbrev Score := ℚ

/-- The `ScoreNormalization` union type of the source
(`'min-max' | 'z-score' | 'none'`); `noNorm` stands for the literal
`'none'`. -/
inductive ScoreNormalization where
  | minMax
  | zScore
  | noNorm
deriving DecidableEq, Repr

/-- Model of `Math.max(...values)` for the nonempty lists the source applies it to
(the source guards `scores.length === 0` first). -/
def listMax : List Score → Score
  | [] => 0
  | v :: vs => vs.foldl max v

/-- Model of `Math.min(...values)` for the nonempty lists the source applies it to. -/
def listMin : List Score → Score
  | [] => 0
  | v :: vs => vs.foldl min v

/-- Embedding of the private method `normalizeScores` of
`SupabaseSemanticSearch` (src/unnamed/part_006, lines 271-295).  The
source receives `{value, index}` objects and reads only `value`; the
pairs are `(value, index)` here.  `sqrtFn` stands for `Math.sqrt`. -/
def normalizeScores (sqrtFn : Score → Score)
    (scores : List (Score × Nat)) (method : ScoreNormalization) : List Score :=
  if method = ScoreNormalization.noNorm ∨ scores.length = 0 then
    scores.map Prod.fst
  else
    let values := scores.map Prod.fst
    let maxValue := listMax values
    let minValue := listMin values
    if method = ScoreNormalization.minMax then
      let range := maxValue - minValue
      if range = 0 then values.map (fun _ => 1)
      else values.map (fun v => (v - minValue) / range)
    else if method = ScoreNormalization.zScore then
      let mean := values.foldl (fun sum v => sum + v) 0 / (values.length : Score)
      let variance :=
        values.foldl (fun sum v => sum + (v - mean) ^ 2) 0 / (values.length : Score)
      let stdDev := sqrtFn variance
      if stdDev = 0 then values.map (fun _ => 0)
      else values.map (fun v => (v - mean) / stdDev)
    else values

/-- The spec's reference definition of the Score Normalizer (spec §4.1),
written from the spec's words: `none` is the identity; `min-max` sends
`v` to `(v - lo) / (hi - lo)` except that every output is `1` when
`hi = lo`; `z-score` sends `v` to `(v - mean) / stdDev` with the
population standard deviation, except that every output is `0` when
`stdDev = 0`; empty input gives empty output. -/
def specNormalize (sqrtFn : Score → Score)
    (values : List Score) (method : ScoreNormalization) : List Score :=
  match method with
  | ScoreNormalization.noNorm => values
  | ScoreNormalization.minMax =>
      let lo := listMin values
      let hi := listMax values
      if hi = lo then values.map (fun _ => 1)
      else values.map (fun v => (v - lo) / (hi - lo))
  | ScoreNormalization.zScore =>
      let n : Score := (values.length : Score)
      let mean := values.foldl (fun sum v => sum + v) 0 / n
      let variance := values.foldl (fun sum v => sum + (v - mean) ^ 2) 0 / n
      let stdDev := sqrtFn variance
      if stdDev = 0 then values.map (fun _ => 0)
      else values.map (fun v => (v - mean) / stdDev)

theorem listMax_sub_listMin_eq_zero_iff (values : List Score) :
    listMax values - listMin values = 0 ↔ listMax values = listMin values := by
  constructor
  · intro h; linarith
  · intro h; rw [h]; ring

/-- Claim C2: `normalizeScores` agrees with the spec's reference
normalizer on every input sequence (in particular: `none` returns the
values unchanged; `min-max` maps everything to `1` when all values are
equal, including singletons; `z-score` uses the population standard
deviation and maps everything to `0` when it vanishes), the output always
has the same length (hence order) as the input, and empty input yields
empty output. -/
theorem c2_normalizeScores_matches_spec (sqrtFn : Score → Score)
    (scores : List (Score × Nat)) (method : ScoreNormalization) :
    normalizeScores sqrtFn scores method
        = specNormalize sqrtFn (scores.map Prod.fst) method
      ∧ (normalizeScores sqrtFn scores method).length = scores.length
      ∧ normalizeScores sqrtFn [] method = [] := by
  refine ⟨?_, ?_, ?_⟩
  · cases method with
    | noNorm => simp [normalizeScores, specNormalize]
    | minMax =>
        cases scores with
        | nil => simp [normalizeScores, specNormalize, listMax, listMin]
        | cons s rest =>
            simp only [normalizeScores, specNormalize]
            simp only [List.length_cons, reduceCtorEq, false_or, if_neg, if_pos,
              Nat.succ_ne_zero, or_false, reduceIte]
            by_cases h :
                listMax ((s :: rest).map Prod.fst)
                  - listMin ((s :: rest).map Prod.fst) = 0
            · rw [if_pos h,
                if_pos ((listMax_sub_listMin_eq_zero_iff _).mp h)]
            · rw [if_neg h, if_neg (fun he =>
                h ((listMax_sub_listMin_eq_zero_iff _).mpr he))]
    | zScore =>
        cases scores with
        | nil =>
            simp only [normalizeScores, specNormalize]
            simp [listMax, listMin]
        | cons s rest =>
            simp only [normalizeScores, specNormalize]
            simp [listMax, listMin]
  · cases method with
    | noNorm => simp [normalizeScores]
    | minMax =>
        cases scores with
        | nil => simp [normalizeScores]
        | cons s rest =>
            simp only [normalizeScores]
            split <;> simp_all <;> split <;> simp
    | zScore =>
        cases scores with
        | nil => simp [normalizeScores]
        | cons s rest =>
            simp only [normalizeScores]
            split <;> simp_all <;> split <;> simp_all <;> split <;> simp
  · simp [normalizeScores]

/-! Stable descending sort.  `Array.prototype.sort` with comparator
`(a, b) => b.hybrid_score - a.hybrid_score` is required by ECMA-262 to be
stable and, for a consistent comparator, its output is the unique stable
descending arrangement; `sortDesc` realises that arrangement. -/

/-- Insert `a` into an already stably-descending list: `a` goes after
every element of strictly larger key and before the first element of
equal-or-smaller key (so earlier-listed elements of equal key stay in
front of later ones). -/
def insertDesc (key : α → Score) (a : α) : List α → List α
  | [] => [a]
  | y :: ys => if key a < key y then y :: insertDesc key a ys else a :: y :: ys

/-- Stable sort by `key`, descending. -/
def sortDesc (key : α → Score) : List α → List α
  | [] => []
  | a :: l => insertDesc key a (sortDesc key l)

theorem mem_insertDesc (key : α → Score) (a x : α) (l : List α) :
    x ∈ insertDesc key a l ↔ x = a ∨ x ∈ l := by
  induction l with
  | nil => simp [insertDesc]
  | cons y ys ih =>
      by_cases h : key a < key y
      · simp only [insertDesc, if_pos h, List.mem_cons, ih]
        tauto
      · simp only [insertDesc, if_neg h, List.mem_cons]

theorem mem_sortDesc (key : α → Score) (x : α) (l : List α) :
    x ∈ sortDesc key l ↔ x ∈ l := by
  induction l with
  | nil => simp [sortDesc]
  | cons a l ih => simp [sortDesc, mem_insertDesc, ih]

theorem length_insertDesc (key : α → Score) (a : α) (l : List α) :
    (insertDesc key a l).length = l.length + 1 := by
  induction l with
  | nil => simp [insertDesc]
  | cons y ys ih =>
      by_cases h : key a < key y
      · simp [insertDesc, if_pos h, ih]
      · simp [insertDesc, if_neg h]

theorem length_sortDesc (key : α → Score) (l : List α) :
    (sortDesc key l).length = l.length := by
  induction l with
  | nil => rfl
  | cons a l ih => simp [sortDesc, length_insertDesc, ih]

theorem pairwise_insertDesc (key : α → Score) (a : α) (l : List α)
    (hl : l.Pairwise (fun x y => key y ≤ key x)) :
    (insertDesc key a l).Pairwise (fun x y => key y ≤ key x) := by
  induction l with
  | nil => simp [insertDesc]
  | cons y ys ih =>
      rcases List.pairwise_cons.mp hl with ⟨hy, hys⟩
      by_cases h : key a < key y
      · rw [insertDesc, if_pos h]
        refine List.pairwise_cons.mpr ⟨?_, ih hys⟩
        intro b hb
        rcases (mem_insertDesc key a b ys).mp hb with rfl | hbys
        · exact le_of_lt h
        · exact hy b hbys
      · rw [insertDesc, if_neg h]
        refine List.pairwise_cons.mpr ⟨?_, hl⟩
        intro b hb
        rcases List.mem_cons.mp hb with rfl | hbys
        · exact le_of_not_lt h
        · exact le_trans (hy b hbys) (le_of_not_lt h)

/-- The `sortDesc` output is descending in `key`. -/
theorem pairwise_sortDesc (key : α → Score) (l : List α) :
    (sortDesc key l).Pairwise (fun x y => key y ≤ key x) := by
  induction l with
  | nil => simp [sortDesc]
  | cons a l ih => exact pairwise_insertDesc key a _ ih

/-- The strict order realised by a stable descending sort on elements
tagged with their original position: larger key first, and original
order on equal keys. -/
def ordKI (key : α → Score) (idx : α → Nat) (x y : α) : Prop :=
  key y < key x ∨ (key x = key y ∧ idx x < idx y)

instance (key : α → Score) (idx : α → Nat) (x y : α) :
    Decidable (ordKI key idx x y) := by
  unfold ordKI; infer_instance

theorem ordKI_asymm (key : α → Score) (idx : α → Nat) (x y : α)
    (h1 : ordKI key idx x y) (h2 : ordKI key idx y x) : False := by
  rcases h1 with h1 | ⟨he1, hi1⟩ <;> rcases h2 with h2 | ⟨he2, hi2⟩
  · exact absurd h2 (not_lt_of_lt h1)
  · exact absurd h1 (by rw [he2]; exact lt_irrefl _)
  · exact absurd h2 (by rw [he1]; exact lt_irrefl _)
  · exact absurd hi2 (Nat.not_lt_of_lt hi1)

theorem pairwise_ordKI_insertDesc (key : α → Score) (idx : α → Nat)
    (a : α) (l : List α) (hl : l.Pairwise (ordKI key idx))
    (ha : ∀ b ∈ l, idx a < idx b) :
    (insertDesc key a l).Pairwise (ordKI key idx) := by
  induction l with
  | nil => simp [insertDesc]
  | cons y ys ih =>
      rcases List.pairwise_cons.mp hl with ⟨hy, hys⟩
      by_cases h : key a < key y
      · rw [insertDesc, if_pos h]
        refine List.pairwise_cons.mpr
          ⟨?_, ih hys (fun b hb => ha b (List.mem_cons_of_mem y hb))⟩
        intro b hb
        rcases (mem_insertDesc key a b ys).mp hb with rfl | hbys
        · exact Or.inl h
        · exact hy b hbys
      · rw [insertDesc, if_neg h]
        refine List.pairwise_cons.mpr ⟨?_, hl⟩
        intro b hb
        rcases List.mem_cons.mp hb with rfl | hbys
        · rcases lt_or_eq_of_le (le_of_not_lt h) with hlt | heq
          · exact Or.inl hlt
          · exact Or.inr ⟨heq.symm, ha b hb⟩
        · rcases hy b hbys with hlt | ⟨heq, _⟩
          · exact Or.inl (lt_of_lt_of_le hlt (le_of_not_lt h))
          · rcases lt_or_eq_of_le (le_of_not_lt h) with hlt' | heq'
            · exact Or.inl (heq ▸ hlt')
            · exact Or.inr ⟨heq' ▸ heq, ha b hb⟩

/-- Stability: sorting a list whose tags are strictly increasing gives a
list that is `Pairwise` in the stable order `ordKI` (descending keys,
original order on ties). -/
theorem pairwise_ordKI_sortDesc (key : α → Score) (idx : α → Nat)
    (l : List α) (hl : l.Pairwise (fun x y => idx x < idx y)) :
    (sortDesc key l).Pairwise (ordKI key idx) := by
  induction l with
  | nil => simp [sortDesc]
  | cons a l ih =>
      rcases List.pairwise_cons.mp hl with ⟨ha, hl'⟩
      exact pairwise_ordKI_insertDesc key idx a _ (ih hl')
        (fun b hb => ha b ((mem_sortDesc key b l).mp hb))

/-- Mapping commutes with `sortDesc` when the key factors through the
mapped function. -/
theorem map_insertDesc (key : β → Score) (f : α → β) (a : α) (l : List α) :
    (insertDesc (fun x => key (f x)) a l).map f = insertDesc key (f a) (l.map f) := by
  induction l with
  | nil => simp [insertDesc]
  | cons y ys ih =>
      by_cases h : key (f a) < key (f y)
      · simp only [insertDesc, if_pos h, List.map_cons, ih]
      · simp only [insertDesc, if_neg h, List.map_cons]

theorem map_sortDesc (key : β → Score) (f : α → β) (l : List α) :
    (sortDesc (fun x => key (f x)) l).map f = sortDesc key (l.map f) := by
  induction l with
  | nil => simp [sortDesc]
  | cons a l ih => simp only [sortDesc, List.map_cons, map_insertDesc, ih]

/-! Indexed mapping: `Array.prototype.map((item, index) => ...)`. -/

/-- Indexed map: `mapIdx f n [a0, a1, ...] = [f n a0, f (n+1) a1, ...]`. -/
def mapIdx (f : Nat → α → β) : Nat → List α → List β
  | _, [] => []
  | n, a :: l => f n a :: mapIdx f (n + 1) l

/-- Tag each element with its position, from `n` up. -/
def withIdx (n : Nat) (l : List α) : List (Nat × α) :=
  mapIdx (fun i a => (i, a)) n l

theorem length_mapIdx (f : Nat → α → β) (n : Nat) (l : List α) :
    (mapIdx f n l).length = l.length := by
  induction l generalizing n with
  | nil => rfl
  | cons a l ih => simp [mapIdx, ih]

theorem getElem?_mapIdx (f : Nat → α → β) (n : Nat) (l : List α) (i : Nat) :
    (mapIdx f n l)[i]? = l[i]?.map (f (n + i)) := by
  induction l generalizing n i with
  | nil => simp [mapIdx]
  | cons a l ih =>
      cases i with
      | zero => simp [mapIdx]
      | succ j =>
          simp only [mapIdx, List.getElem?_cons_succ, ih (n + 1) j]
          have : n + 1 + j = n + (j + 1) := by omega
          rw [this]

theorem map_mapIdx (f : Nat → α → β) (g : β → γ) (n : Nat) (l : List α) :
    (mapIdx f n l).map g = mapIdx (fun i a => g (f i a)) n l := by
  induction l generalizing n with
  | nil => rfl
  | cons a l ih => simp [mapIdx, ih]

theorem mapIdx_const (f : α → β) (n : Nat) (l : List α) :
    mapIdx (fun _ a => f a) n l = l.map f := by
  induction l generalizing n with
  | nil => rfl
  | cons a l ih => simp [mapIdx, ih]

theorem mem_withIdx_le (n : Nat) (l : List α) (p : Nat × α)
    (hp : p ∈ withIdx n l) : n ≤ p.1 := by
  induction l generalizing n with
  | nil => simp [withIdx, mapIdx] at hp
  | cons a l ih =>
      rcases List.mem_cons.mp hp with rfl | h
      · exact le_refl _
      · exact le_trans (Nat.le_succ n) (ih (n + 1) h)

theorem pairwise_withIdx (n : Nat) (l : List α) :
    (withIdx n l).Pairwise (fun x y => x.1 < y.1) := by
  induction l generalizing n with
  | nil => exact List.Pairwise.nil
  | cons a l ih =>
      refine List.pairwise_cons.mpr ⟨?_, ih (n + 1)⟩
      intro p hp
      exact lt_of_lt_of_le (Nat.lt_succ_self n) (mem_withIdx_le (n + 1) l p hp)

theorem withIdx_getElem? (n : Nat) (l : List α) (i : Nat) :
    (withIdx n l)[i]? = l[i]?.map (fun a => (n + i, a)) :=
  getElem?_mapIdx _ n l i

/-! Position order inside a list. -/

/-- Holds when `x` occurs strictly before `y` in `l` (at explicit positions). -/
def before (l : List α) (x y : α) : Prop :=
  ∃ p q : Fin l.length, p < q ∧ l.get p = x ∧ l.get q = y

instance [DecidableEq α] (l : List α) (x y : α) : Decidable (before l x y) := by
  unfold before; infer_instance

theorem before_rel {R : α → α → Prop} (l : List α) (hl : l.Pairwise R)
    (x y : α) (h : before l x y) : R x y := by
  rcases h with ⟨p, q, hpq, hx, hy⟩
  subst hx; subst hy
  exact List.pairwise_iff_get.mp hl p q hpq

theorem before_total (l : List α) (x y : α) (hx : x ∈ l) (hy : y ∈ l)
    (hne : x ≠ y) : before l x y ∨ before l y x := by
  rcases List.mem_iff_get.mp hx with ⟨p, hp⟩
  rcases List.mem_iff_get.mp hy with ⟨q, hq⟩
  rcases lt_trichotomy p q with h | h | h
  · exact Or.inl ⟨p, q, h, hp, hq⟩
  · exact absurd (by rw [← hp, ← hq, h]) hne
  · exact Or.inr ⟨q, p, h, hq, hp⟩

theorem before_mem (l : List α) (x y : α) (h : before l x y) :
    x ∈ l ∧ y ∈ l := by
  rcases h with ⟨p, q, _, hx, hy⟩
  exact ⟨hx ▸ List.get_mem l p.1 p.2, hy ▸ List.get_mem l q.1 q.2⟩

/-! Data model of the fusion core (spec §3, source part_006).  `J` is the
type of `row_data` payloads. -/

/-- One row of the `semantic_search` RPC result: `(row_data, similarity)`. -/
structure VHit (J : Type) where
  row_data : J
  similarity : Score
deriving DecidableEq, Repr

/-- One row of the `fulltext_search` RPC result: `(row_data, bm25_score)`. -/
structure FHit (J : Type) where
  row_data : J
  bm25_score : Score
deriving DecidableEq, Repr

/-- One entry of `combinedResults` in the client-side merge:
`{data, vectorScore, bm25Score}`. -/
structure Candidate (J : Type) where
  data : J
  vectorScore : Score
  bm25Score : Score
deriving DecidableEq, Repr

/-- One `HybridSearchResultItem`: the row payload spread together with
`hybrid_score`, `bm25_score` and `vector_score`. -/
structure ResultItem (J : Type) where
  data : J
  hybrid_score : Score
  bm25_score : Score
  vector_score : Score
deriving DecidableEq, Repr

/-! JavaScript `Map` with `String` keys, in insertion order. -/

/-- Model of `m.set(k, v)`: overwrite in place when `k` is present (the key keeps
its original position, the value is replaced — last write wins), append
otherwise. -/
def mapSet (m : List (String × α)) (k : String) (v : α) : List (String × α) :=
  if m.any (fun p => p.1 = k) then
    m.map (fun p => if p.1 = k then (k, v) else p)
  else m ++ [(k, v)]

/-- Model of `m.get(k)` (as `Option`). -/
def mapGet (m : List (String × α)) (k : String) : Option α :=
  (m.find? (fun p => p.1 = k)).map Prod.snd

/-- The keys of `m` in insertion order. -/
def mapKeys (m : List (String × α)) : List String :=
  m.map Prod.fst

/-- Model of `new Set([...])` iteration order: first occurrences, in order
(formulated structurally: dedup the tail, then drop the head key from
it). -/
def dedupFirst : List String → List String
  | [] => []
  | k :: ks => k :: (dedupFirst ks).filter (fun x => x ≠ k)

/-! The client-side merge of `hybridSearch` (part_006 lines 399-429). -/

/-- The `vectorMap`: `forEach((item, index) => map.set(JSON.stringify(item.row_data),
{score: item.similarity, index}))`. -/
def vectorMapOf (stringify : J → String) (vhits : List (VHit J)) :
    List (String × (Score × Nat)) :=
  (withIdx 0 vhits).foldl
    (fun m p => mapSet m (stringify p.2.row_data) (p.2.similarity, p.1)) []

/-- The `fulltextMap`, analogously with `bm25_score`. -/
def fulltextMapOf (stringify : J → String) (fhits : List (FHit J)) :
    List (String × (Score × Nat)) :=
  (withIdx 0 fhits).foldl
    (fun m p => mapSet m (stringify p.2.row_data) (p.2.bm25_score, p.1)) []

/-- The key union `allKeys = new Set([...vectorMap.keys(), ...fulltextMap.keys()])`. -/
def allKeysOf (stringify : J → String)
    (vhits : List (VHit J)) (fhits : List (FHit J)) : List String :=
  dedupFirst (mapKeys (vectorMapOf stringify vhits)
    ++ mapKeys (fulltextMapOf stringify fhits))

/-- The `combinedResults` merge: for each key of `allKeys`, the candidate
`{data: JSON.parse(key), vectorScore: vectorMap.get(key)?.score || 0,
bm25Score: fulltextMap.get(key)?.score || 0}`. -/
def clientCombine (stringify : J → String) (parse : String → J)
    (vhits : List (VHit J)) (fhits : List (FHit J)) : List (Candidate J) :=
  (allKeysOf stringify vhits fhits).map (fun key =>
    { data := parse key
      vectorScore := ((mapGet (vectorMapOf stringify vhits) key).map Prod.fst).getD 0
      bm25Score := ((mapGet (fulltextMapOf stringify fhits) key).map Prod.fst).getD 0 })

/-! Normalization and scoring of the merged candidates
(part_006 lines 431-444). -/

/-- The two score columns handed to `normalizeScores`:
`combinedResults.map((r, i) => ({value: r.vectorScore, index: i}))` and
its `bm25Score` twin. -/
def vectorColumn (combined : List (Candidate J)) : List (Score × Nat) :=
  mapIdx (fun i r => (r.vectorScore, i)) 0 combined

def bm25Column (combined : List (Candidate J)) : List (Score × Nat) :=
  mapIdx (fun i r => (r.bm25Score, i)) 0 combined

/-- The `hybridResults` list: each candidate spread with
`hybrid_score = alpha * normalizedBm25Scores[i] + beta * normalizedVectorScores[i]`
and its raw (pre-normalization) component scores. -/
def hybridItems (sqrtFn : Score → Score) (method : ScoreNormalization)
    (alpha beta : Score) (combined : List (Candidate J)) : List (ResultItem J) :=
  let normalizedVectorScores := normalizeScores sqrtFn (vectorColumn combined) method
  let normalizedBm25Scores := normalizeScores sqrtFn (bm25Column combined) method
  mapIdx (fun index r =>
    { data := r.data
      hybrid_score := alpha * normalizedBm25Scores.getD index 0
        + beta * normalizedVectorScores.getD index 0
      bm25_score := r.bm25Score
      vector_score := r.vectorScore }) 0 combined

/-- The final filter / stable sort / truncation
(part_006 lines 446-450): keep `hybrid_score >= threshold`, sort by
`hybrid_score` descending (stable), `slice(0, topK)`. -/
def rankList (key : α → Score) (threshold : Score) (topK : Nat)
    (l : List α) : List α :=
  ((sortDesc key (l.filter (fun x => threshold ≤ key x))).take topK)

/-- The whole client-side fusion: merge, normalize, weight, filter, sort,
truncate. -/
def clientRank (sqrtFn : Score → Score) (stringify : J → String)
    (parse : String → J) (method : ScoreNormalization)
    (alpha beta threshold : Score) (topK : Nat)
    (vhits : List (VHit J)) (fhits : List (FHit J)) : List (ResultItem J) :=
  rankList (fun it => it.hybrid_score) threshold topK
    (hybridItems sqrtFn method alpha beta (clientCombine stringify parse vhits fhits))

/-! The query orchestrator `hybridSearch` (part_006 lines 324-459).
Network effects are represented by their outcomes: the embedding call
either throws (caught by the surrounding `try`/`catch`) or yields a
vector, and each Supabase RPC resolves to a `{data, error}` pair.  The
second component of the results below is the list of store RPCs the code
dispatches, in program order, used to reason about which queries are
attempted. -/

/-- A resolved `supabase.rpc(...)` value: `{data, error}` (either field
may be `null`). -/
structure RpcRes (α : Type) where
  data : Option α
  error : Option String
deriving DecidableEq, Repr

/-- A `HybridSearchResult`: `{data, error}` as returned to the caller. -/
structure SearchOut (J : Type) where
  data : Option (List (ResultItem J))
  error : Option String
deriving DecidableEq, Repr

/-- One row of the store-side `hybrid_search` RPC result. -/
structure StoreRow (J : Type) where
  row_data : J
  hybrid_score : Score
  bm25_score : Score
  vector_score : Score
deriving DecidableEq, Repr

/-- The `HybridSearchOptions` after defaulting
(`topK = 5, alpha = 0.3, beta = 0.7, normalization = 'min-max',
threshold = 0.1`). -/
structure HybridOptions where
  topK : Nat
  alpha : Score
  beta : Score
  normalization : ScoreNormalization
  threshold : Score

/-- The dual-query (client-side fusion) path of `hybridSearch`
(part_006 lines 377-452): `Promise.all` dispatches both the
`semantic_search` and the `fulltext_search` RPC, then the vector error is
checked first, then the lexical error; with neither, the resolved rows
(`data` possibly `null`, read as empty) go through merge, normalization,
weighting, filter, stable sort and truncation. -/
def hybridSearchDual (sqrtFn : Score → Score) (stringify : J → String)
    (parse : String → J) (opts : HybridOptions)
    (vectorResults : RpcRes (List (VHit J)))
    (fulltextResults : RpcRes (List (FHit J))) :
    SearchOut J × List String :=
  let issued := ["semantic_search", "fulltext_search"]
  match vectorResults.error with
  | some e => (⟨none, some e⟩, issued)
  | none =>
    match fulltextResults.error with
    | some e => (⟨none, some e⟩, issued)
    | none =>
        (⟨some (clientRank sqrtFn stringify parse opts.normalization
            opts.alpha opts.beta opts.threshold opts.topK
            (vectorResults.data.getD []) (fulltextResults.data.getD [])), none⟩,
          issued)

/-- The whole of `hybridSearch` after the options are defaulted: the
embedding call either throws (its message is returned through the
`catch` clause with `data: null`) or succeeds; with
`normalization = 'min-max'` the single store-side `hybrid_search` RPC is
dispatched with `k = topK * 2` and the orchestrator re-applies the
threshold filter and the `topK` cut; otherwise the dual-query client
path runs. -/
def hybridSearchRun (sqrtFn : Score → Score) (stringify : J → String)
    (parse : String → J) (opts : HybridOptions)
    (embedRes : Except String Unit)
    (storeRes : RpcRes (List (StoreRow J)))
    (vectorResults : RpcRes (List (VHit J)))
    (fulltextResults : RpcRes (List (FHit J))) :
    SearchOut J × List String :=
  match embedRes with
  | Except.error msg => (⟨none, some msg⟩, [])
  | Except.ok _ =>
    if opts.normalization = ScoreNormalization.minMax then
      match storeRes.error with
      | some e => (⟨none, some e⟩, ["hybrid_search"])
      | none =>
          let results := (storeRes.data.getD []).map (fun item =>
            ResultItem.mk item.row_data item.hybrid_score item.bm25_score
              item.vector_score)
          (⟨some ((results.filter
              (fun item => opts.threshold ≤ item.hybrid_score)).take opts.topK),
            none⟩, ["hybrid_search"])
    else
      hybridSearchDual sqrtFn stringify parse opts vectorResults fulltextResults

/-! The SQL store primitives (src/unnamed/part_002 and
src/sql/06_hybrid_search_functions.sql), modelled for one fixed query
against one table.  A `Row` carries the two per-row facts the primitives
depend on: `vecSim = some s` when `embedding is not null` and the row's
cosine similarity to the query embedding is `s` (`1 - distance`), and
`ftsScore = some s` when the row matches the full-text predicate with
`ts_rank_cd` score `s` (non-matching rows are absent from the lexical
result, not zero-scored).  Row payloads (`to_jsonb(t.*)`) are assumed
pairwise distinct, as they are for distinct rows of a table with a key;
ties in the SQL `order by` clauses, which SQL leaves unspecified, are
resolved in table order. -/

structure Row (J : Type) where
  row_data : J
  vecSim : Option Score
  ftsScore : Option Score
deriving DecidableEq, Repr

/-- Model of `semantic_search(table, q, k)`: rows with non-null embedding, ordered
by similarity descending, `limit k`, returning `(row_data, similarity)`. -/
def semanticSearchRows (tbl : List (Row J)) (k : Nat) : List (VHit J) :=
  ((sortDesc (fun r => r.vecSim.getD 0)
      (tbl.filter (fun r => r.vecSim.isSome))).take k).map
    (fun r => ⟨r.row_data, r.vecSim.getD 0⟩)

/-- Model of `fulltext_search(table, col, q, k)`: matching rows ordered by
`bm25_score` descending, `limit k`, returning `(row_data, bm25_score)`. -/
def fulltextSearchRows (tbl : List (Row J)) (k : Nat) : List (FHit J) :=
  ((sortDesc (fun r => r.ftsScore.getD 0)
      (tbl.filter (fun r => r.ftsScore.isSome))).take k).map
    (fun r => ⟨r.row_data, r.ftsScore.getD 0⟩)

/-- Model of `hybrid_search(table, col, q, emb, alpha, beta, k)`
(06_hybrid_search_functions.sql lines 49-114): the full outer join of the
vector rows (all rows with non-null embedding) and the full-text rows
(all matching rows) keyed by `row_data`, with missing scores coalesced to
`0`; each column is then normalized by dividing by its maximum when that
maximum is positive and set to `0` otherwise; rows with
`alpha * norm_bm25 + beta * norm_vector > 0` (strictly) are ordered by
that hybrid score descending and cut to `k`. -/
def hybridSearchSQL (tbl : List (Row J)) (alpha beta : Score) (k : Nat) :
    List (StoreRow J) :=
  let combined := (tbl.filter
      (fun r => r.vecSim.isSome || r.ftsScore.isSome)).map
    (fun r => (r.row_data, r.vecSim.getD 0, r.ftsScore.getD 0))
  let maxVector := listMax (combined.map (fun c => c.2.1))
  let maxBm25 := listMax (combined.map (fun c => c.2.2))
  let scored := combined.map (fun c =>
    let normVector := if 0 < maxVector then c.2.1 / maxVector else 0
    let normBm25 := if 0 < maxBm25 then c.2.2 / maxBm25 else 0
    StoreRow.mk c.1 (alpha * normBm25 + beta * normVector) c.2.2 c.2.1)
  (sortDesc (fun r => r.hybrid_score)
    (scored.filter (fun r => 0 < r.hybrid_score))).take k

/-- The store-side path of `hybridSearch` end to end, on the table model:
the SQL function is called with `k = topK * 2` and the orchestrator
re-applies `threshold` and `topK` (part_006 lines 348-374). -/
def hybridStorePath (tbl : List (Row J)) (alpha beta threshold : Score)
    (topK : Nat) : List (ResultItem J) :=
  (((hybridSearchSQL tbl alpha beta (topK * 2)).map (fun item =>
      ResultItem.mk item.row_data item.hybrid_score item.bm25_score
        item.vector_score)).filter
    (fun item => threshold ≤ item.hybrid_score)).take topK

/-- The client-side path of `hybridSearch` end to end, on the same table
model: both primitives are called with `k = topK * 2` and the results
are merged and ranked client-side. -/
def hybridClientPath (sqrtFn : Score → Score) (stringify : J → String)
    (parse : String → J) (tbl : List (Row J))
    (method : ScoreNormalization) (alpha beta threshold : Score)
    (topK : Nat) : List (ResultItem J) :=
  clientRank sqrtFn stringify parse method alpha beta threshold topK
    (semanticSearchRows tbl (topK * 2)) (fulltextSearchRows tbl (topK * 2))


/-! Characterisation of the merge maps. -/

theorem mapGet_cons (p : String × α) (m : List (String × α)) (k : String) :
    mapGet (p :: m) k = if p.1 = k then some p.2 else mapGet m k := by
  by_cases h : p.1 = k
  · rw [mapGet, List.find?_cons_of_pos _ (by simpa using h), if_pos h]
    rfl
  · rw [mapGet, List.find?_cons_of_neg _ (by simpa using h), if_neg h]
    rfl

theorem any_keys_iff (m : List (String × α)) (k : String) :
    (m.any (fun p => p.1 = k)) = true ↔ k ∈ mapKeys m := by
  simp [mapKeys, List.any_eq_true, List.mem_map]

theorem mapKeys_mapSet (m : List (String × α)) (k : String) (v : α) :
    mapKeys (mapSet m k v)
      = if k ∈ mapKeys m then mapKeys m else mapKeys m ++ [k] := by
  by_cases h : k ∈ mapKeys m
  · rw [if_pos h, mapSet, if_pos ((any_keys_iff m k).mpr h)]
    simp only [mapKeys, List.map_map]
    apply List.map_congr_left
    intro p _
    by_cases hp : p.1 = k
    · simp [Function.comp, hp]
    · simp [Function.comp, hp]
  · rw [if_neg h, mapSet,
      if_neg (fun ha => h ((any_keys_iff m k).mp ha))]
    simp [mapKeys]

theorem mem_mapKeys_foldl {A : Type} (kA : A → String) (vA : A → α)
    (l : List A) (m0 : List (String × α)) (k : String) :
    (k ∈ mapKeys (l.foldl (fun m a => mapSet m (kA a) (vA a)) m0))
      ↔ k ∈ mapKeys m0 ∨ ∃ a ∈ l, kA a = k := by
  induction l generalizing m0 with
  | nil => simp
  | cons a l ih =>
      rw [List.foldl_cons, ih, mapKeys_mapSet]
      by_cases h : kA a ∈ mapKeys m0
      · rw [if_pos h]
        constructor
        · rintro (hm | ⟨x, hx, he⟩)
          · exact Or.inl hm
          · exact Or.inr ⟨x, List.mem_cons_of_mem a hx, he⟩
        · rintro (hm | ⟨x, hx, he⟩)
          · exact Or.inl hm
          · rcases List.mem_cons.mp hx with rfl | hxl
            · exact Or.inl (he ▸ h)
            · exact Or.inr ⟨x, hxl, he⟩
      · rw [if_neg h]
        constructor
        · rintro (hm | ⟨x, hx, he⟩)
          · rcases List.mem_append.mp hm with hm0 | hsing
            · exact Or.inl hm0
            · exact Or.inr ⟨a, List.mem_cons_self a l,
                (List.mem_singleton.mp hsing).symm⟩
          · exact Or.inr ⟨x, List.mem_cons_of_mem a hx, he⟩
        · rintro (hm | ⟨x, hx, he⟩)
          · exact Or.inl (List.mem_append.mpr (Or.inl hm))
          · rcases List.mem_cons.mp hx with rfl | hxl
            · exact Or.inl (List.mem_append.mpr
                (Or.inr (List.mem_singleton.mpr he.symm)))
            · exact Or.inr ⟨x, hxl, he⟩

theorem nodup_mapKeys_mapSet (m : List (String × α)) (k : String) (v : α)
    (h : (mapKeys m).Nodup) : (mapKeys (mapSet m k v)).Nodup := by
  rw [mapKeys_mapSet]
  by_cases hk : k ∈ mapKeys m
  · rwa [if_pos hk]
  · rw [if_neg hk, List.nodup_append]
    exact ⟨h, List.nodup_singleton k, by simpa using hk⟩

theorem nodup_mapKeys_foldl {A : Type} (kA : A → String) (vA : A → α)
    (l : List A) (m0 : List (String × α)) (h : (mapKeys m0).Nodup) :
    (mapKeys (l.foldl (fun m a => mapSet m (kA a) (vA a)) m0)).Nodup := by
  induction l generalizing m0 with
  | nil => exact h
  | cons a l ih => exact ih _ (nodup_mapKeys_mapSet m0 (kA a) (vA a) h)

theorem mapGet_overwrite (m : List (String × α)) (k' k : String) (v : α)
    (hne : k' ≠ k) :
    mapGet (m.map (fun p => if p.1 = k' then (k', v) else p)) k = mapGet m k := by
  induction m with
  | nil => rfl
  | cons p m ih =>
      by_cases hp : p.1 = k'
      · rw [List.map_cons, if_pos hp, mapGet_cons, mapGet_cons,
          if_neg (show ¬((k', v).1 = k) from hne),
          if_neg (show ¬(p.1 = k) from hp ▸ hne)]
        exact ih
      · rw [List.map_cons, if_neg hp, mapGet_cons, mapGet_cons]
        by_cases hk : p.1 = k
        · rw [if_pos hk, if_pos hk]
        · rw [if_neg hk, if_neg hk]
          exact ih

theorem mapGet_overwrite_same (m : List (String × α)) (k : String) (v : α)
    (hmem : k ∈ mapKeys m) :
    mapGet (m.map (fun p => if p.1 = k then (k, v) else p)) k = some v := by
  induction m with
  | nil => simp [mapKeys] at hmem
  | cons p m ih =>
      by_cases hp : p.1 = k
      · rw [List.map_cons, if_pos hp, mapGet_cons, if_pos rfl]
      · rw [List.map_cons, if_neg hp, mapGet_cons, if_neg hp]
        refine ih ?_
        have hmem' : k ∈ p.1 :: mapKeys m := by
          simpa [mapKeys] using hmem
        rcases List.mem_cons.mp hmem' with he | hm
        · exact absurd he.symm hp
        · exact hm

theorem mapGet_append_single (m : List (String × α)) (k' k : String) (v : α) :
    mapGet (m ++ [(k', v)]) k
      = match mapGet m k with
        | some w => some w
        | none => if k' = k then some v else none := by
  induction m with
  | nil =>
      rw [List.nil_append, mapGet_cons]
      rfl
  | cons p m ih =>
      rw [List.cons_append, mapGet_cons, mapGet_cons]
      by_cases hp : p.1 = k
      · rw [if_pos hp, if_pos hp]
      · rw [if_neg hp, if_neg hp, ih]

theorem mapGet_none_of_not_mem (m : List (String × α)) (k : String)
    (h : k ∉ mapKeys m) : mapGet m k = none := by
  induction m with
  | nil => rfl
  | cons p m ih =>
      rw [mapGet_cons, if_neg (fun he => h (by simp [mapKeys, he]))]
      exact ih (fun hm => h (by
        simp only [mapKeys, List.map_cons, List.mem_cons]
        exact Or.inr (by simpa [mapKeys] using hm)))

/-- Reading back after `Map.set`: the freshly set key reads back the new value,
all other keys are untouched. -/
theorem mapGet_mapSet (m : List (String × α)) (k' k : String) (v : α) :
    mapGet (mapSet m k' v) k = if k' = k then some v else mapGet m k := by
  by_cases hmem : (m.any (fun p => p.1 = k')) = true
  · rw [mapSet, if_pos hmem]
    by_cases he : k' = k
    · subst he
      rw [if_pos rfl]
      exact mapGet_overwrite_same m k' v ((any_keys_iff m k').mp hmem)
    · rw [if_neg he]
      exact mapGet_overwrite m k' k v he
  · rw [mapSet, if_neg hmem, mapGet_append_single]
    by_cases he : k' = k
    · subst he
      rw [mapGet_none_of_not_mem m k'
        (fun hm => hmem ((any_keys_iff m k').mpr hm))]
    · cases hmk : mapGet m k with
      | some w => simp [he]
      | none => simp [he]

/-- The last element of `l` satisfying `pred` (the value a chain of
`Map.set` calls leaves behind — last write wins). -/
def findLast (pred : A → Bool) : List A → Option A
  | [] => none
  | a :: l =>
      match findLast pred l with
      | some x => some x
      | none => if pred a then some a else none

/-- Folding `set` over a hit list then reading key `k` yields the value
of the LAST hit whose key is `k`. -/
theorem mapGet_foldl {A : Type} (kA : A → String) (vA : A → α)
    (l : List A) (m0 : List (String × α)) (k : String) :
    mapGet (l.foldl (fun m a => mapSet m (kA a) (vA a)) m0) k
      = match findLast (fun a => kA a = k) l with
        | some a => some (vA a)
        | none => mapGet m0 k := by
  induction l generalizing m0 with
  | nil => rfl
  | cons a l ih =>
      rw [List.foldl_cons, ih]
      cases hfind : findLast (fun a => kA a = k) l with
      | some x => simp [findLast, hfind]
      | none =>
          by_cases he : kA a = k
          · simp [mapGet_mapSet, findLast, hfind, he]
          · simp [mapGet_mapSet, findLast, hfind, he]

theorem mem_dedupFirst (l : List String) (k : String) :
    k ∈ dedupFirst l ↔ k ∈ l := by
  induction l with
  | nil => simp [dedupFirst]
  | cons a l ih =>
      rw [dedupFirst]
      simp only [List.mem_cons, List.mem_filter]
      constructor
      · rintro (rfl | ⟨hm, _⟩)
        · exact Or.inl rfl
        · exact Or.inr (ih.mp hm)
      · rintro (rfl | hm)
        · exact Or.inl rfl
        · by_cases he : k = a
          · exact Or.inl he
          · exact Or.inr ⟨ih.mpr hm, by simp [he]⟩

theorem nodup_dedupFirst (l : List String) : (dedupFirst l).Nodup := by
  induction l with
  | nil => simp [dedupFirst]
  | cons a l ih =>
      rw [dedupFirst]
      refine List.nodup_cons.mpr ⟨?_, List.Nodup.filter _ ih⟩
      intro hm
      rcases List.mem_filter.mp hm with ⟨_, hne⟩
      simp at hne

/-! Characterisation of the client-side merge. -/

theorem snd_withIdx (n : Nat) (l : List α) :
    (withIdx n l).map Prod.snd = l := by
  rw [withIdx, map_mapIdx]
  exact mapIdx_const (fun a => a) n l |>.trans (List.map_id l)

theorem findLast_withIdx_proj (pred : α → Bool) (f : α → β) (g : Nat × α → β)
    (hg : ∀ p, g p = f p.2) (n : Nat) (l : List α) :
    (findLast (fun p => pred p.2) (withIdx n l)).map g
      = (findLast pred l).map f := by
  induction l generalizing n with
  | nil => rfl
  | cons a l ih =>
      have hstep : withIdx n (a :: l) = (n, a) :: withIdx (n + 1) l := rfl
      rw [hstep]
      have ihn := ih (n + 1)
      rw [findLast, findLast]
      cases hl : findLast pred l with
      | some y =>
          rw [hl] at ihn
          cases hl' : findLast (fun p => pred p.2) (withIdx (n + 1) l) with
          | some x =>
              rw [hl'] at ihn
              simpa using ihn
          | none =>
              rw [hl'] at ihn
              simp at ihn
      | none =>
          rw [hl] at ihn
          cases hl' : findLast (fun p => pred p.2) (withIdx (n + 1) l) with
          | some x =>
              rw [hl'] at ihn
              simp at ihn
          | none =>
              rw [hl'] at ihn
              by_cases hp : pred a = true
              · simp [hp, hg]
              · simp [hp]

/-- The vector-side score the merge assigns to key `k`: the similarity of
the last vector hit serialising to `k`, and `0` when no vector hit does. -/
def lastVectorScore (stringify : J → String) (vhits : List (VHit J))
    (k : String) : Score :=
  match findLast (fun h => stringify h.row_data = k) vhits with
  | some h => h.similarity
  | none => 0

/-- The lexical-side score the merge assigns to key `k`. -/
def lastBm25Score (stringify : J → String) (fhits : List (FHit J))
    (k : String) : Score :=
  match findLast (fun h => stringify h.row_data = k) fhits with
  | some h => h.bm25_score
  | none => 0

theorem mapGet_vectorMapOf (stringify : J → String) (vhits : List (VHit J))
    (k : String) :
    ((mapGet (vectorMapOf stringify vhits) k).map Prod.fst)
      = (findLast (fun h => stringify h.row_data = k) vhits).map
          (fun h => h.similarity) := by
  rw [vectorMapOf, mapGet_foldl]
  have hproj := findLast_withIdx_proj (fun h : VHit J => stringify h.row_data = k)
    (fun h => h.similarity) (fun p => p.2.similarity) (fun p => rfl) 0 vhits
  cases hfl : findLast
      (fun p : Nat × VHit J => stringify p.2.row_data = k) (withIdx 0 vhits) with
  | some x =>
      rw [hfl] at hproj
      simp only [Option.map_some] at hproj ⊢
      rw [← hproj]
      simp
  | none =>
      rw [hfl] at hproj
      simp only [Option.map_none] at hproj ⊢
      rw [← hproj]
      rfl

theorem mapGet_fulltextMapOf (stringify : J → String) (fhits : List (FHit J))
    (k : String) :
    ((mapGet (fulltextMapOf stringify fhits) k).map Prod.fst)
      = (findLast (fun h => stringify h.row_data = k) fhits).map
          (fun h => h.bm25_score) := by
  rw [fulltextMapOf, mapGet_foldl]
  have hproj := findLast_withIdx_proj (fun h : FHit J => stringify h.row_data = k)
    (fun h => h.bm25_score) (fun p => p.2.bm25_score) (fun p => rfl) 0 fhits
  cases hfl : findLast
      (fun p : Nat × FHit J => stringify p.2.row_data = k) (withIdx 0 fhits) with
  | some x =>
      rw [hfl] at hproj
      simp only [Option.map_some] at hproj ⊢
      rw [← hproj]
      simp
  | none =>
      rw [hfl] at hproj
      simp only [Option.map_none] at hproj ⊢
      rw [← hproj]
      rfl

/-- The merged candidate list, characterised: one candidate per key of
`allKeysOf`, whose payload is `parse` of the key and whose component
scores are the last write from each side (or `0` when that side never
saw the key). -/
theorem clientCombine_eq (stringify : J → String) (parse : String → J)
    (vhits : List (VHit J)) (fhits : List (FHit J)) :
    clientCombine stringify parse vhits fhits
      = (allKeysOf stringify vhits fhits).map (fun k =>
          ⟨parse k, lastVectorScore stringify vhits k,
            lastBm25Score stringify fhits k⟩) := by
  rw [clientCombine]
  apply List.map_congr_left
  intro k _
  have hv := mapGet_vectorMapOf stringify vhits k
  have hf := mapGet_fulltextMapOf stringify fhits k
  congr 1
  · rw [hv, lastVectorScore]
    cases hfl : findLast (fun h => stringify h.row_data = k) vhits <;> simp [hfl]
  · rw [hf, lastBm25Score]
    cases hfl : findLast (fun h => stringify h.row_data = k) fhits <;> simp [hfl]

theorem mem_allKeysOf (stringify : J → String)
    (vhits : List (VHit J)) (fhits : List (FHit J)) (k : String) :
    k ∈ allKeysOf stringify vhits fhits
      ↔ (∃ h ∈ vhits, stringify h.row_data = k)
        ∨ ∃ h ∈ fhits, stringify h.row_data = k := by
  rw [allKeysOf, mem_dedupFirst, List.mem_append]
  have hv : (k ∈ mapKeys (vectorMapOf stringify vhits))
      ↔ ∃ h ∈ vhits, stringify h.row_data = k := by
    rw [vectorMapOf, mem_mapKeys_foldl]
    simp only [mapKeys, List.map_nil, List.not_mem_nil, false_or]
    constructor
    · rintro ⟨p, hp, he⟩
      exact ⟨p.2, by
        rw [← snd_withIdx 0 vhits]
        exact List.mem_map_of_mem Prod.snd hp, he⟩
    · rintro ⟨h, hh, he⟩
      have : h ∈ (withIdx 0 vhits).map Prod.snd := by
        rw [snd_withIdx]; exact hh
      rcases List.mem_map.mp this with ⟨p, hp, hpe⟩
      exact ⟨p, hp, by rw [hpe]; exact he⟩
  have hf : (k ∈ mapKeys (fulltextMapOf stringify fhits))
      ↔ ∃ h ∈ fhits, stringify h.row_data = k := by
    rw [fulltextMapOf, mem_mapKeys_foldl]
    simp only [mapKeys, List.map_nil, List.not_mem_nil, false_or]
    constructor
    · rintro ⟨p, hp, he⟩
      exact ⟨p.2, by
        rw [← snd_withIdx 0 fhits]
        exact List.mem_map_of_mem Prod.snd hp, he⟩
    · rintro ⟨h, hh, he⟩
      have : h ∈ (withIdx 0 fhits).map Prod.snd := by
        rw [snd_withIdx]; exact hh
      rcases List.mem_map.mp this with ⟨p, hp, hpe⟩
      exact ⟨p, hp, by rw [hpe]; exact he⟩
  rw [hv, hf]

theorem nodup_allKeysOf (stringify : J → String)
    (vhits : List (VHit J)) (fhits : List (FHit J)) :
    (allKeysOf stringify vhits fhits).Nodup :=
  nodup_dedupFirst _

/-- Claim C3: for all vector-hit and lexical-hit lists, the client-side
merge yields exactly one candidate per identity key in the union of the
two sides' identities: the key list is duplicate-free, a key occurs in
it exactly when some hit on either side serialises to it, the candidate
count equals the key count, and each candidate carries the vector-side
score of the last vector hit with its key (`0` when absent) and the
lexical-side score of the last lexical hit with its key (`0` when
absent) — duplicates within one side are resolved last-write-wins, not
by raising. -/
theorem c3_merge_union_no_double_count (J : Type) (stringify : J → String)
    (parse : String → J) (vhits : List (VHit J)) (fhits : List (FHit J)) :
    (clientCombine stringify parse vhits fhits).length
        = (allKeysOf stringify vhits fhits).length
      ∧ (allKeysOf stringify vhits fhits).Nodup
      ∧ (∀ k, k ∈ allKeysOf stringify vhits fhits
          ↔ ((∃ h ∈ vhits, stringify h.row_data = k)
              ∨ ∃ h ∈ fhits, stringify h.row_data = k))
      ∧ clientCombine stringify parse vhits fhits
          = (allKeysOf stringify vhits fhits).map (fun k =>
              ⟨parse k, lastVectorScore stringify vhits k,
                lastBm25Score stringify fhits k⟩) := by
  refine ⟨?_, nodup_allKeysOf stringify vhits fhits,
    mem_allKeysOf stringify vhits fhits, clientCombine_eq stringify parse vhits fhits⟩
  rw [clientCombine_eq, List.length_map]

/-- Claim C9: the identity key of the client-side merge is the
serialisation of the entire `row_data` payload.  Every hit's serialised
payload is a key of the merge, the key list is duplicate-free (so two
rows are fused into one candidate exactly when their payloads serialise
identically), each candidate is rebuilt as `parse` of its key string
with the two sides' last-written scores, and two hits whose payloads
serialise differently give rise to two distinct candidate slots, whatever
relation their payloads bear to each other. -/
theorem c9_identity_is_serialised_payload (J : Type) (stringify : J → String)
    (parse : String → J) (vhits : List (VHit J)) (fhits : List (FHit J)) :
    (∀ v ∈ vhits, stringify v.row_data ∈ allKeysOf stringify vhits fhits)
      ∧ (∀ f ∈ fhits, stringify f.row_data ∈ allKeysOf stringify vhits fhits)
      ∧ (allKeysOf stringify vhits fhits).Nodup
      ∧ clientCombine stringify parse vhits fhits
          = (allKeysOf stringify vhits fhits).map (fun k =>
              ⟨parse k, lastVectorScore stringify vhits k,
                lastBm25Score stringify fhits k⟩)
      ∧ (∀ v ∈ vhits, ∀ f ∈ fhits,
          stringify v.row_data ≠ stringify f.row_data →
          ∃ i j : Fin (allKeysOf stringify vhits fhits).length, i ≠ j
            ∧ (allKeysOf stringify vhits fhits).get i = stringify v.row_data
            ∧ (allKeysOf stringify vhits fhits).get j = stringify f.row_data) := by
  refine ⟨?_, ?_, nodup_allKeysOf stringify vhits fhits,
    clientCombine_eq stringify parse vhits fhits, ?_⟩
  · intro v hv
    exact (mem_allKeysOf stringify vhits fhits _).mpr
      (Or.inl ⟨v, hv, rfl⟩)
  · intro f hf
    exact (mem_allKeysOf stringify vhits fhits _).mpr
      (Or.inr ⟨f, hf, rfl⟩)
  · intro v hv f hf hne
    have hkv : stringify v.row_data ∈ allKeysOf stringify vhits fhits :=
      (mem_allKeysOf stringify vhits fhits _).mpr (Or.inl ⟨v, hv, rfl⟩)
    have hkf : stringify f.row_data ∈ allKeysOf stringify vhits fhits :=
      (mem_allKeysOf stringify vhits fhits _).mpr (Or.inr ⟨f, hf, rfl⟩)
    rcases List.mem_iff_get.mp hkv with ⟨i, hi⟩
    rcases List.mem_iff_get.mp hkf with ⟨j, hj⟩
    refine ⟨i, j, ?_, hi, hj⟩
    intro hij
    exact hne (by rw [← hi, ← hj, hij])

/-! Claims about the orchestrator paths. -/

/-- Claim C7: the fusion-internal computation is total — whenever both
store queries resolve without error (whatever rows they carry, the
`null`-data case included via `getD []`), the dual path returns a
successful result (`error = null`) holding exactly the merged, normalized
and ranked list; in particular two empty result sets produce the empty
result list with a null error rather than an error. -/
theorem c7_fusion_total_empty_ok (J : Type) (sqrtFn : Score → Score)
    (stringify : J → String) (parse : String → J) (opts : HybridOptions)
    (vdata : Option (List (VHit J))) (fdata : Option (List (FHit J))) :
    (hybridSearchDual sqrtFn stringify parse opts ⟨vdata, none⟩ ⟨fdata, none⟩).1.error
        = none
      ∧ (hybridSearchDual sqrtFn stringify parse opts ⟨vdata, none⟩ ⟨fdata, none⟩).1.data
          = some (clientRank sqrtFn stringify parse opts.normalization
              opts.alpha opts.beta opts.threshold opts.topK
              (vdata.getD []) (fdata.getD []))
      ∧ (hybridSearchDual sqrtFn stringify parse opts
            ⟨some [], none⟩ ⟨some [], none⟩).1 = ⟨some [], none⟩ := by
  refine ⟨rfl, rfl, ?_⟩
  have hempty : clientRank sqrtFn stringify parse opts.normalization
      opts.alpha opts.beta opts.threshold opts.topK
      ([] : List (VHit J)) ([] : List (FHit J)) = [] := by
    simp [clientRank, rankList, clientCombine, allKeysOf, vectorMapOf,
      fulltextMapOf, withIdx, mapIdx, mapKeys, dedupFirst, hybridItems,
      sortDesc]
  show (⟨some (clientRank sqrtFn stringify parse opts.normalization
      opts.alpha opts.beta opts.threshold opts.topK
      (([] : List (VHit J))) (([] : List (FHit J)))), none⟩ : SearchOut J)
    = ⟨some [], none⟩
  rw [hempty]

/-- Claim C10: every run of `hybridSearch` returns a value in which
exactly one of `data` and `error` is null — a non-null error with null
data on any failure (embedding throw, store-side RPC error, either
dual-path RPC error), and a non-null (possibly empty) list with a null
error otherwise. -/
theorem c10_data_error_exclusive (J : Type) (sqrtFn : Score → Score)
    (stringify : J → String) (parse : String → J) (opts : HybridOptions)
    (embedRes : Except String Unit) (storeRes : RpcRes (List (StoreRow J)))
    (vres : RpcRes (List (VHit J))) (fres : RpcRes (List (FHit J))) :
    (((hybridSearchRun sqrtFn stringify parse opts embedRes storeRes vres fres).1.error
          = none
        ∧ ∃ l, (hybridSearchRun sqrtFn stringify parse opts embedRes storeRes
            vres fres).1.data = some l)
      ∨ ((hybridSearchRun sqrtFn stringify parse opts embedRes storeRes
            vres fres).1.data = none
        ∧ ∃ e, (hybridSearchRun sqrtFn stringify parse opts embedRes storeRes
            vres fres).1.error = some e)) := by
  obtain ⟨sdata, serr⟩ := storeRes
  obtain ⟨vdata, verr⟩ := vres
  obtain ⟨fdata, ferr⟩ := fres
  cases embedRes with
  | error msg => exact Or.inr ⟨rfl, msg, rfl⟩
  | ok u =>
      cases u
      rw [hybridSearchRun]
      by_cases hm : opts.normalization = ScoreNormalization.minMax
      · rw [if_pos hm]
        cases serr with
        | some e => exact Or.inr ⟨rfl, e, rfl⟩
        | none => exact Or.inl ⟨rfl, _, rfl⟩
      · rw [if_neg hm, hybridSearchDual]
        cases verr with
        | some e => exact Or.inr ⟨rfl, e, rfl⟩
        | none =>
            cases ferr with
            | some e => exact Or.inr ⟨rfl, e, rfl⟩
            | none => exact Or.inl ⟨rfl, _, rfl⟩

/-- Counterexample to claim C6 as stated: in the dual-query path the
lexical (`fulltext_search`) query IS attempted even when the vector
query fails — `Promise.all` dispatches both RPCs before either outcome
is inspected, so at this concrete input the dispatch log contains the
lexical query although the vector query errored (the error is still
surfaced with null data). -/
theorem c6_counterexample_lexical_attempted :
    (hybridSearchRun (fun q => q) (fun s : String => s) (fun s => s)
          ⟨5, 3, 7, ScoreNormalization.zScore, 0⟩ (Except.ok ())
          ⟨some [], none⟩ ⟨some [], some "vector failure"⟩ ⟨some [], none⟩).2
        = ["semantic_search", "fulltext_search"]
      ∧ "fulltext_search" ∈ (hybridSearchRun (fun q => q) (fun s : String => s)
          (fun s => s) ⟨5, 3, 7, ScoreNormalization.zScore, 0⟩ (Except.ok ())
          ⟨some [], none⟩ ⟨some [], some "vector failure"⟩ ⟨some [], none⟩).2
      ∧ (hybridSearchRun (fun q => q) (fun s : String => s) (fun s => s)
          ⟨5, 3, 7, ScoreNormalization.zScore, 0⟩ (Except.ok ())
          ⟨some [], none⟩ ⟨some [], some "vector failure"⟩ ⟨some [], none⟩).1
        = ⟨none, some "vector failure"⟩ :=
  ⟨rfl, by decide, rfl⟩

/-- Claim C6, amended: in the dual-query path (normalization `'z-score'`
or `'none'`), when the vector query reports an error the call returns
that error with null data regardless of the lexical query's outcome —
the vector error takes precedence when both queries fail and the
surviving query's rows are never used — but the lexical query is still
dispatched (both RPCs are issued in parallel), not skipped. -/
theorem c6_amended_vector_error_precedence (J : Type) (sqrtFn : Score → Score)
    (stringify : J → String) (parse : String → J) (topK : Nat)
    (alpha beta threshold : Score) (storeRes : RpcRes (List (StoreRow J)))
    (vdata : Option (List (VHit J))) (e : String)
    (fres : RpcRes (List (FHit J))) :
    hybridSearchRun sqrtFn stringify parse
        ⟨topK, alpha, beta, ScoreNormalization.zScore, threshold⟩
        (Except.ok ()) storeRes ⟨vdata, some e⟩ fres
      = (⟨none, some e⟩, ["semantic_search", "fulltext_search"])
    ∧ hybridSearchRun sqrtFn stringify parse
        ⟨topK, alpha, beta, ScoreNormalization.noNorm, threshold⟩
        (Except.ok ()) storeRes ⟨vdata, some e⟩ fres
      = (⟨none, some e⟩, ["semantic_search", "fulltext_search"]) :=
  ⟨rfl, rfl⟩

/-! The ranking pipeline: threshold filter, stable descending sort,
truncation (claim C4). -/

theorem mem_rankList (key : α → Score) (t : Score) (k : Nat) (l : List α)
    (x : α) (hx : x ∈ rankList key t k l) : x ∈ l ∧ t ≤ key x := by
  have h1 : x ∈ sortDesc key (l.filter (fun y => t ≤ key y)) :=
    List.mem_of_mem_take hx
  have h2 : x ∈ l.filter (fun y => t ≤ key y) := (mem_sortDesc _ _ _).mp h1
  rcases List.mem_filter.mp h2 with ⟨hmem, hpred⟩
  exact ⟨hmem, by simpa using hpred⟩

theorem map_filter_comm (f : α → β) (q : β → Bool) (l : List α) :
    (l.filter (fun x => q (f x))).map f = (l.map f).filter q := by
  induction l with
  | nil => rfl
  | cons a l ih =>
      by_cases h : q (f a) = true
      · rw [List.filter_cons, if_pos h, List.map_cons, List.map_cons,
          List.filter_cons, if_pos h, ih]
      · rw [List.filter_cons, if_neg h, List.map_cons,
          List.filter_cons, if_neg h, ih]

theorem rankList_withIdx_map_snd (key : α → Score) (t : Score) (k : Nat)
    (l : List α) :
    (rankList (fun p => key p.2) t k (withIdx 0 l)).map Prod.snd
      = rankList key t k l := by
  rw [rankList, rankList, List.map_take, map_sortDesc,
    map_filter_comm Prod.snd (fun x => decide (t ≤ key x)) (withIdx 0 l),
    snd_withIdx]

theorem rankList_pairwise_ordKI (key : α → Score) (idx : α → Nat)
    (t : Score) (k : Nat) (l : List α)
    (hl : l.Pairwise (fun a b => idx a < idx b)) :
    (rankList key t k l).Pairwise (ordKI key idx) := by
  have hf : (l.filter (fun y => t ≤ key y)).Pairwise
      (fun a b => idx a < idx b) := hl.sublist (List.filter_sublist l)
  have hs := pairwise_ordKI_sortDesc key idx _ hf
  exact hs.sublist (List.take_sublist k _)

theorem rankList_pairwise_desc (key : α → Score) (t : Score) (k : Nat)
    (l : List α) :
    (rankList key t k l).Pairwise (fun a b => key b ≤ key a) :=
  (pairwise_sortDesc key _).sublist (List.take_sublist k _)

/-- Claim C4: the ranked result never contains an item with
`hybrid_score < threshold` (the threshold filter keeps items whose score
equals the threshold exactly), never exceeds `topK` items, and is
ordered by `hybrid_score` descending with stable ties (position-tagged
candidates in the output are pairwise ordered by score descending, equal
scores keeping their merge order); the dual path of `hybridSearch`
returns exactly this pipeline applied to the merged candidates, and the
store-side path's threshold filter and `topK` cut obey the same
threshold and length bounds, its output (on the table model, whose SQL
orders by hybrid score descending) being descending as well. -/
theorem c4_threshold_topk_sorted_stable (J : Type)
    (items : List (ResultItem J)) (threshold : Score) (topK : Nat) :
    (∀ it ∈ rankList (fun it => it.hybrid_score) threshold topK items,
        threshold ≤ it.hybrid_score)
      ∧ (rankList (fun it => it.hybrid_score) threshold topK items).length ≤ topK
      ∧ (rankList (fun it => it.hybrid_score) threshold topK items).Pairwise
          (fun a b => b.hybrid_score ≤ a.hybrid_score)
      ∧ (rankList (fun p => p.2.hybrid_score) threshold topK
            (withIdx 0 items)).Pairwise
          (ordKI (fun p => p.2.hybrid_score) Prod.fst)
      ∧ (rankList (fun p => p.2.hybrid_score) threshold topK
            (withIdx 0 items)).map Prod.snd
          = rankList (fun it => it.hybrid_score) threshold topK items
      ∧ (∀ it ∈ items, threshold ≤ it.hybrid_score →
          it ∈ items.filter (fun x => threshold ≤ x.hybrid_score))
      ∧ (∀ (sqrtFn : Score → Score) (stringify : J → String)
            (parse : String → J) (method : ScoreNormalization)
            (alpha beta : Score) (vhits : List (VHit J))
            (fhits : List (FHit J)),
          (hybridSearchDual sqrtFn stringify parse
              ⟨topK, alpha, beta, method, threshold⟩
              ⟨some vhits, none⟩ ⟨some fhits, none⟩).1.data
            = some (rankList (fun it => it.hybrid_score) threshold topK
                (hybridItems sqrtFn method alpha beta
                  (clientCombine stringify parse vhits fhits))))
      ∧ (∀ (sqrtFn : Score → Score) (stringify : J → String)
            (parse : String → J) (alpha beta : Score)
            (rows : List (StoreRow J)) (vres : RpcRes (List (VHit J)))
            (fres : RpcRes (List (FHit J))),
          (∀ it ∈ ((hybridSearchRun sqrtFn stringify parse
              ⟨topK, alpha, beta, ScoreNormalization.minMax, threshold⟩
              (Except.ok ()) ⟨some rows, none⟩ vres fres).1.data.getD []),
            threshold ≤ it.hybrid_score)
          ∧ ((hybridSearchRun sqrtFn stringify parse
              ⟨topK, alpha, beta, ScoreNormalization.minMax, threshold⟩
              (Except.ok ()) ⟨some rows, none⟩ vres fres).1.data.getD
                []).length ≤ topK)
      ∧ (∀ (tbl : List (Row J)) (alpha beta : Score),
          (hybridStorePath tbl alpha beta threshold topK).Pairwise
            (fun a b => b.hybrid_score ≤ a.hybrid_score)) := by
  refine ⟨?_, ?_, rankList_pairwise_desc _ threshold topK items,
    rankList_pairwise_ordKI _ Prod.fst threshold topK _
      (pairwise_withIdx 0 items),
    rankList_withIdx_map_snd _ threshold topK items, ?_, ?_, ?_, ?_⟩
  · intro it hit
    exact (mem_rankList _ threshold topK items it hit).2
  · exact List.length_take_le topK _
  · intro it hit hts
    exact List.mem_filter.mpr ⟨hit, by simpa using hts⟩
  · intro sqrtFn stringify parse method alpha beta vhits fhits
    rfl
  · intro sqrtFn stringify parse alpha beta rows vres fres
    have hdata : (hybridSearchRun sqrtFn stringify parse
        ⟨topK, alpha, beta, ScoreNormalization.minMax, threshold⟩
        (Except.ok ()) ⟨some rows, none⟩ vres fres).1.data.getD []
      = ((rows.map (fun item => ResultItem.mk item.row_data item.hybrid_score
            item.bm25_score item.vector_score)).filter
          (fun item => threshold ≤ item.hybrid_score)).take topK := rfl
    rw [hdata]
    constructor
    · intro it hit
      have h2 := List.mem_of_mem_take hit
      rcases List.mem_filter.mp h2 with ⟨_, hpred⟩
      simpa using hpred
    · exact List.length_take_le topK _
  · intro tbl alpha beta
    have h1 : (hybridSearchSQL tbl alpha beta (topK * 2)).Pairwise
        (fun a b => b.hybrid_score ≤ a.hybrid_score) :=
      (pairwise_sortDesc _ _).sublist (List.take_sublist _ _)
    have h2 : ((hybridSearchSQL tbl alpha beta (topK * 2)).map
        (fun item => ResultItem.mk item.row_data item.hybrid_score
          item.bm25_score item.vector_score)).Pairwise
        (fun a b => b.hybrid_score ≤ a.hybrid_score) :=
      (List.pairwise_map).mpr h1
    exact (h2.sublist (List.filter_sublist _)).sublist
      (List.take_sublist _ _)

/-! Claim C5: the weighting formula and the raw emitted scores. -/

theorem length_hybridItems (sqrtFn : Score → Score)
    (method : ScoreNormalization) (alpha beta : Score)
    (combined : List (Candidate J)) :
    (hybridItems sqrtFn method alpha beta combined).length = combined.length :=
  length_mapIdx _ 0 combined

theorem getElem?_hybridItems (sqrtFn : Score → Score)
    (method : ScoreNormalization) (alpha beta : Score)
    (combined : List (Candidate J)) (i : Nat) :
    (hybridItems sqrtFn method alpha beta combined)[i]?
      = combined[i]?.map (fun r =>
          ⟨r.data,
            alpha * (normalizeScores sqrtFn (bm25Column combined) method).getD i 0
              + beta * (normalizeScores sqrtFn (vectorColumn combined)
                  method).getD i 0,
            r.bm25Score, r.vectorScore⟩) := by
  rw [hybridItems]
  rw [getElem?_mapIdx]
  simp

/-- Claim C5: in the client-side path every candidate's hybrid score is
`alpha * normalizedLexical[i] + beta * normalizedVector[i]`, where each
of the two normalized columns is computed by `normalizeScores` from its
own raw column alone (the bm25 column from the candidates' `bm25Score`
values, the vector column from their `vectorScore` values — the columns
never mix); and every produced item carries the candidate's original
pre-normalization `bm25_score` and `vector_score` together with its
payload, the final filtered/sorted/truncated output items all being among
these produced items. -/
theorem c5_weighting_formula_raw_scores (J : Type) (sqrtFn : Score → Score)
    (method : ScoreNormalization) (alpha beta threshold : Score) (topK : Nat)
    (combined : List (Candidate J)) :
    (hybridItems sqrtFn method alpha beta combined).length = combined.length
      ∧ (bm25Column combined).map Prod.fst = combined.map Candidate.bm25Score
      ∧ (vectorColumn combined).map Prod.fst
          = combined.map Candidate.vectorScore
      ∧ (∀ (i : Nat) (d : ResultItem J) (c : Candidate J), i < combined.length →
          (hybridItems sqrtFn method alpha beta combined).getD i d
            = ⟨(combined.getD i c).data,
                alpha * (normalizeScores sqrtFn (bm25Column combined)
                    method).getD i 0
                  + beta * (normalizeScores sqrtFn (vectorColumn combined)
                      method).getD i 0,
                (combined.getD i c).bm25Score,
                (combined.getD i c).vectorScore⟩)
      ∧ (∀ it ∈ rankList (fun it => it.hybrid_score) threshold topK
            (hybridItems sqrtFn method alpha beta combined),
          it ∈ hybridItems sqrtFn method alpha beta combined) := by
  refine ⟨length_hybridItems sqrtFn method alpha beta combined, ?_, ?_, ?_, ?_⟩
  · rw [bm25Column, map_mapIdx]
    exact mapIdx_const _ 0 combined
  · rw [vectorColumn, map_mapIdx]
    exact mapIdx_const _ 0 combined
  · intro i d c hi
    have h1 := getElem?_hybridItems sqrtFn method alpha beta combined i
    have h2 : (hybridItems sqrtFn method alpha beta combined).getD i d
        = ((hybridItems sqrtFn method alpha beta combined)[i]?).getD d :=
      List.getD_eq_getElem?_getD _ i d
    have h3 : combined.getD i c = combined[i] := by
      rw [List.getD_eq_getElem?_getD, List.getElem?_eq_getElem hi]
      rfl
    rw [h2, h1, List.getElem?_eq_getElem hi, h3]
    rfl
  · intro it hit
    exact (mem_rankList _ threshold topK _ it hit).1

/-! Claim C8: fusion monotonicity in `beta`. -/

/-- The client ranking pipeline on position-tagged items (the tag is the
merge position, which the stable sort uses for ties). -/
def hybridItemsIdx (sqrtFn : Score → Score) (method : ScoreNormalization)
    (alpha beta : Score) (combined : List (Candidate J)) :
    List (Nat × ResultItem J) :=
  withIdx 0 (hybridItems sqrtFn method alpha beta combined)

def rankedIdx (sqrtFn : Score → Score) (method : ScoreNormalization)
    (alpha beta threshold : Score) (topK : Nat)
    (combined : List (Candidate J)) : List (Nat × ResultItem J) :=
  rankList (fun p => p.2.hybrid_score) threshold topK
    (hybridItemsIdx sqrtFn method alpha beta combined)

theorem getElem?_of_mem_withIdx (n : Nat) (l : List α) (p : Nat × α)
    (hp : p ∈ withIdx n l) : n ≤ p.1 ∧ l[p.1 - n]? = some p.2 := by
  induction l generalizing n with
  | nil => exact absurd hp (by simp [withIdx, mapIdx])
  | cons a l ih =>
      have hstep : withIdx n (a :: l) = (n, a) :: withIdx (n + 1) l := rfl
      rw [hstep] at hp
      rcases List.mem_cons.mp hp with rfl | hmem
      · exact ⟨le_refl n, by simp⟩
      · rcases ih (n + 1) hmem with ⟨hle, hget⟩
        refine ⟨le_trans (Nat.le_succ n) hle, ?_⟩
        have harith : p.1 - n = (p.1 - (n + 1)) + 1 := by omega
        rw [harith, List.getElem?_cons_succ]
        exact hget

theorem pairwise_rankedIdx (sqrtFn : Score → Score)
    (method : ScoreNormalization) (alpha beta threshold : Score) (topK : Nat)
    (combined : List (Candidate J)) :
    (rankedIdx sqrtFn method alpha beta threshold topK combined).Pairwise
      (ordKI (fun p => p.2.hybrid_score) Prod.fst) :=
  rankList_pairwise_ordKI _ Prod.fst threshold topK _
    (pairwise_withIdx 0 (hybridItems sqrtFn method alpha beta combined))

/-- An item of the ranked, position-tagged output carries the weighted
hybrid score of its merge position. -/
theorem hybrid_score_of_mem_rankedIdx (sqrtFn : Score → Score)
    (method : ScoreNormalization) (alpha beta threshold : Score) (topK : Nat)
    (combined : List (Candidate J)) (i : Nat) (A : ResultItem J)
    (h : (i, A) ∈ rankedIdx sqrtFn method alpha beta threshold topK combined) :
    A.hybrid_score
      = alpha * (normalizeScores sqrtFn (bm25Column combined) method).getD i 0
        + beta * (normalizeScores sqrtFn (vectorColumn combined)
            method).getD i 0 := by
  have h1 : (i, A) ∈ hybridItemsIdx sqrtFn method alpha beta combined :=
    (mem_rankList _ threshold topK _ _ h).1
  have h2 := (getElem?_of_mem_withIdx 0 _ _ h1).2
  rw [Nat.sub_zero] at h2
  rw [getElem?_hybridItems] at h2
  cases hc : combined[i]? with
  | none =>
      rw [hc] at h2
      simp at h2
  | some r =>
      rw [hc] at h2
      simp at h2
      rw [← h2]
      simp [List.getD_eq_getElem?_getD]

/-- The arithmetic core of fusion monotonicity: with `alpha, beta ≥ 0`,
`beta ≤ beta'`, not both weights zero at the smaller `beta`, a candidate
whose normalized vector score dominates its normalized lexical score
(`li < vi`) that is ranked at-or-above (in the stable order) a candidate
with the reverse relation (`vj < lj`) stays at-or-above when `beta`
grows. -/
theorem fusion_mono_core (alpha beta beta' li vi lj vj : Score)
    (hα : 0 ≤ alpha) (hβ : 0 ≤ beta) (hββ : beta ≤ beta')
    (hnz : ¬(alpha = 0 ∧ beta = 0))
    (hvi : li < vi) (hvj : vj < lj) (i j : Nat)
    (hord : (alpha * lj + beta * vj < alpha * li + beta * vi)
        ∨ (alpha * li + beta * vi = alpha * lj + beta * vj ∧ i < j)) :
    (alpha * lj + beta' * vj < alpha * li + beta' * vi)
      ∨ (alpha * li + beta' * vi = alpha * lj + beta' * vj ∧ i < j) := by
  rcases lt_trichotomy vi vj with hv | hv | hv
  · exfalso
    have hl : li < lj := by linarith
    have h1 : alpha * li ≤ alpha * lj :=
      mul_le_mul_of_nonneg_left (le_of_lt hl) hα
    have h2 : beta * vi ≤ beta * vj :=
      mul_le_mul_of_nonneg_left (le_of_lt hv) hβ
    rcases hord with hlt | ⟨heq, _⟩
    · linarith
    · have hae : alpha * li = alpha * lj := by linarith
      have hbe : beta * vi = beta * vj := by linarith
      have ha0 : alpha = 0 := by
        by_contra hne
        exact absurd (mul_left_cancel₀ hne hae) (ne_of_lt hl)
      have hb0 : beta = 0 := by
        by_contra hne
        exact absurd (mul_left_cancel₀ hne hbe) (ne_of_lt hv)
      exact hnz ⟨ha0, hb0⟩
  · have hl : li < lj := by
      rw [hv] at hvi
      linarith
    have h1 : alpha * li ≤ alpha * lj :=
      mul_le_mul_of_nonneg_left (le_of_lt hl) hα
    rcases hord with hlt | ⟨heq, hij⟩
    · exfalso
      rw [hv] at hlt
      linarith
    · have ha0 : alpha = 0 := by
        by_contra hne
        have hae : alpha * li = alpha * lj := by
          rw [hv] at heq
          linarith
        exact absurd (mul_left_cancel₀ hne hae) (ne_of_lt hl)
      right
      refine ⟨?_, hij⟩
      rw [ha0, hv]
      ring
  · have hmono : (alpha * li + beta' * vi) - (alpha * lj + beta' * vj)
        = ((alpha * li + beta * vi) - (alpha * lj + beta * vj))
          + (beta' - beta) * (vi - vj) := by ring
    have hpos : 0 ≤ (beta' - beta) * (vi - vj) :=
      mul_nonneg (by linarith) (by linarith)
    rcases hord with hlt | ⟨heq, hij⟩
    · left
      nlinarith
    · rcases lt_or_eq_of_le hpos with hp | hp
      · left
        nlinarith
      · right
        exact ⟨by nlinarith, hij⟩

/-- Claim C8, amended: holding `alpha`, the raw scores, the candidate
set, the normalization method, the threshold and `topK` fixed, and
provided `alpha` and the smaller `beta` are not BOTH zero, increasing
`beta` never demotes a candidate whose normalized vector score strictly
exceeds its normalized lexical score below a candidate with the reverse
relation: if the former precedes the latter in the ranked output at
`beta` and both still appear in the ranked output at `beta' ≥ beta`, the
former still precedes the latter.  (Without the not-both-zero proviso
the claim fails: see the counterexample, where an all-zero weighting
ties every score and raising `beta` reverses the stable tie order.) -/
theorem c8_amended_beta_monotone (J : Type) (sqrtFn : Score → Score)
    (method : ScoreNormalization) (alpha beta beta' threshold : Score)
    (topK : Nat) (combined : List (Candidate J)) (i j : Nat)
    (A B A' B' : ResultItem J)
    (hα : 0 ≤ alpha) (hβ : 0 ≤ beta) (hββ : beta ≤ beta')
    (hnz : ¬(alpha = 0 ∧ beta = 0))
    (hvi : (normalizeScores sqrtFn (bm25Column combined) method).getD i 0
        < (normalizeScores sqrtFn (vectorColumn combined) method).getD i 0)
    (hvj : (normalizeScores sqrtFn (vectorColumn combined) method).getD j 0
        < (normalizeScores sqrtFn (bm25Column combined) method).getD j 0)
    (hb : before (rankedIdx sqrtFn method alpha beta threshold topK combined)
        (i, A) (j, B))
    (hi' : (i, A') ∈ rankedIdx sqrtFn method alpha beta' threshold topK combined)
    (hj' : (j, B') ∈ rankedIdx sqrtFn method alpha beta' threshold topK combined) :
    before (rankedIdx sqrtFn method alpha beta' threshold topK combined)
      (i, A') (j, B') := by
  have hij : i ≠ j := by
    intro he
    rw [he] at hvi
    exact absurd hvj (not_lt_of_lt hvi)
  have hmemA : (i, A) ∈ rankedIdx sqrtFn method alpha beta threshold topK combined :=
    (before_mem _ _ _ hb).1
  have hmemB : (j, B) ∈ rankedIdx sqrtFn method alpha beta threshold topK combined :=
    (before_mem _ _ _ hb).2
  have hA := hybrid_score_of_mem_rankedIdx sqrtFn method alpha beta threshold
    topK combined i A hmemA
  have hB := hybrid_score_of_mem_rankedIdx sqrtFn method alpha beta threshold
    topK combined j B hmemB
  have hA' := hybrid_score_of_mem_rankedIdx sqrtFn method alpha beta' threshold
    topK combined i A' hi'
  have hB' := hybrid_score_of_mem_rankedIdx sqrtFn method alpha beta' threshold
    topK combined j B' hj'
  have hordβ := before_rel _ (pairwise_rankedIdx sqrtFn method alpha beta
    threshold topK combined) _ _ hb
  simp only [ordKI] at hordβ
  rw [hA, hB] at hordβ
  have hord' := fusion_mono_core alpha beta beta'
    ((normalizeScores sqrtFn (bm25Column combined) method).getD i 0)
    ((normalizeScores sqrtFn (vectorColumn combined) method).getD i 0)
    ((normalizeScores sqrtFn (bm25Column combined) method).getD j 0)
    ((normalizeScores sqrtFn (vectorColumn combined) method).getD j 0)
    hα hβ hββ hnz hvi hvj i j hordβ
  have hne' : ((i, A') : Nat × ResultItem J) ≠ (j, B') := by
    intro he
    exact hij (congrArg Prod.fst he)
  rcases before_total _ _ _ hi' hj' hne' with hbf | hbf
  · exact hbf
  · exfalso
    have hord2 := before_rel _ (pairwise_rankedIdx sqrtFn method alpha beta'
      threshold topK combined) _ _ hbf
    have hself : ordKI (fun p : Nat × ResultItem J => p.2.hybrid_score)
        Prod.fst (i, A') (j, B') := by
      simp only [ordKI]
      rw [hA', hB']
      exact hord'
    exact ordKI_asymm _ _ _ _ hself hord2

/-- Candidate set of the C8 counterexample: merge position 0 holds a
vector-dominant candidate, position 1 a lexical-dominant one. -/
def c8CexCombined : List (Candidate String) :=
  [⟨"a", 1, 0⟩, ⟨"b", 2, 3⟩]

theorem c8_cex_ranked_zero :
    rankedIdx (fun q => q) ScoreNormalization.noNorm 0 0 0 5 c8CexCombined
      = [(0, ⟨"a", 0, 0, 1⟩), (1, ⟨"b", 0, 3, 2⟩)] := by
  norm_num [rankedIdx, rankList, hybridItemsIdx, hybridItems, withIdx, mapIdx,
    normalizeScores, vectorColumn, bm25Column, sortDesc, insertDesc,
    c8CexCombined, List.getD]

theorem c8_cex_ranked_one :
    rankedIdx (fun q => q) ScoreNormalization.noNorm 0 1 0 5 c8CexCombined
      = [(1, ⟨"b", 2, 3, 2⟩), (0, ⟨"a", 1, 0, 1⟩)] := by
  norm_num [rankedIdx, rankList, hybridItemsIdx, hybridItems, withIdx, mapIdx,
    normalizeScores, vectorColumn, bm25Column, sortDesc, insertDesc,
    c8CexCombined, List.getD]

/-- Counterexample to claim C8 as stated: with `alpha = 0` held fixed and
every score, the candidate set, the normalization method (`'none'`), the
threshold and `topK` fixed, raising `beta` from `0` to `1` DOES demote
the candidate whose normalized vector score strictly exceeds its
normalized lexical score (merge position 0: vector `1 > 0` lexical)
below the candidate with the reverse relation (merge position 1:
lexical `3 > 2` vector): at `beta = 0` every hybrid score ties and the
stable sort ranks position 0 first; at `beta = 1` position 1 overtakes
it. -/
theorem c8_counterexample_rank_reversal :
    ((normalizeScores (fun q => q) (bm25Column c8CexCombined)
          ScoreNormalization.noNorm).getD 0 0
        < (normalizeScores (fun q => q) (vectorColumn c8CexCombined)
            ScoreNormalization.noNorm).getD 0 0)
      ∧ ((normalizeScores (fun q => q) (vectorColumn c8CexCombined)
            ScoreNormalization.noNorm).getD 1 0
          < (normalizeScores (fun q => q) (bm25Column c8CexCombined)
              ScoreNormalization.noNorm).getD 1 0)
      ∧ before (rankedIdx (fun q => q) ScoreNormalization.noNorm 0 0 0 5
            c8CexCombined)
          (0, ⟨"a", 0, 0, 1⟩) (1, ⟨"b", 0, 3, 2⟩)
      ∧ before (rankedIdx (fun q => q) ScoreNormalization.noNorm 0 1 0 5
            c8CexCombined)
          (1, ⟨"b", 2, 3, 2⟩) (0, ⟨"a", 1, 0, 1⟩) := by
  refine ⟨?_, ?_, ?_, ?_⟩
  · norm_num [normalizeScores, vectorColumn, bm25Column, mapIdx,
      c8CexCombined, List.getD]
  · norm_num [normalizeScores, vectorColumn, bm25Column, mapIdx,
      c8CexCombined, List.getD]
  · rw [c8_cex_ranked_zero]
    exact ⟨⟨0, by norm_num⟩, ⟨1, by norm_num⟩, by norm_num, rfl, rfl⟩
  · rw [c8_cex_ranked_one]
    exact ⟨⟨0, by norm_num⟩, ⟨1, by norm_num⟩, by norm_num, rfl, rfl⟩

/-- Candidate set of the C8 witness. -/
def c8WitCombined : List (Candidate String) :=
  [⟨"a", 3, 0⟩, ⟨"b", 0, 2⟩]

theorem c8_wit_ranked_beta :
    rankedIdx (fun q => q) ScoreNormalization.noNorm 1 1 0 5 c8WitCombined
      = [(0, ⟨"a", 3, 0, 3⟩), (1, ⟨"b", 2, 2, 0⟩)] := by
  norm_num [rankedIdx, rankList, hybridItemsIdx, hybridItems, withIdx, mapIdx,
    normalizeScores, vectorColumn, bm25Column, sortDesc, insertDesc,
    c8WitCombined, List.getD]

theorem c8_wit_ranked_beta' :
    rankedIdx (fun q => q) ScoreNormalization.noNorm 1 2 0 5 c8WitCombined
      = [(0, ⟨"a", 6, 0, 3⟩), (1, ⟨"b", 2, 2, 0⟩)] := by
  norm_num [rankedIdx, rankList, hybridItemsIdx, hybridItems, withIdx, mapIdx,
    normalizeScores, vectorColumn, bm25Column, sortDesc, insertDesc,
    c8WitCombined, List.getD]

/-- Witness for the amended claim C8 at a concrete input: `alpha = 1`,
`beta = 1 ≤ 2 = beta'`, candidate 0 vector-dominant (`3 > 0`), candidate
1 lexical-dominant (`2 > 0`), candidate 0 ranked first at `beta` and
both present at `beta'` — so candidate 0 still precedes candidate 1. -/
theorem c8_amended_beta_monotone_witness :
    before (rankedIdx (fun q => q) ScoreNormalization.noNorm 1 2 0 5
        c8WitCombined)
      (0, ⟨"a", 6, 0, 3⟩) (1, ⟨"b", 2, 2, 0⟩) :=
  c8_amended_beta_monotone String (fun q => q) ScoreNormalization.noNorm
    1 1 2 0 5 c8WitCombined 0 1
    ⟨"a", 3, 0, 3⟩ ⟨"b", 2, 2, 0⟩ ⟨"a", 6, 0, 3⟩ ⟨"b", 2, 2, 0⟩
    (by norm_num) (by norm_num) (by norm_num) (by norm_num)
    (by norm_num [normalizeScores, vectorColumn, bm25Column, mapIdx,
      c8WitCombined, List.getD])
    (by norm_num [normalizeScores, vectorColumn, bm25Column, mapIdx,
      c8WitCombined, List.getD])
    (by
      rw [c8_wit_ranked_beta]
      exact ⟨⟨0, by norm_num⟩, ⟨1, by norm_num⟩, by norm_num, rfl, rfl⟩)
    (by
      rw [c8_wit_ranked_beta']
      exact List.mem_cons_self _ _)
    (by
      rw [c8_wit_ranked_beta']
      exact List.mem_cons_of_mem _ (List.mem_cons_self _ _))

/-! Claim C1: the store-side fused path versus the client-side path,
evaluated on one concrete table. -/

/-- The C1 failing input: two rows, both with embeddings (similarities
`0.9` and `0.85` to the query), of which only `"B"` matches the
full-text predicate (score `1`). -/
def c1Table : List (Row String) :=
  [⟨"A", some (9/10), none⟩, ⟨"B", some (17/20), some 1⟩]

theorem c1_store_path_eval :
    hybridStorePath c1Table (3/10) (7/10) (1/10) 5
      = [⟨"B", 173/180, 1, 17/20⟩, ⟨"A", 7/10, 0, 9/10⟩] := by
  norm_num [hybridStorePath, hybridSearchSQL, c1Table, listMax, sortDesc,
    insertDesc, max_def]

theorem c1_semantic_rows_eval :
    semanticSearchRows c1Table 10 = [⟨"A", 9/10⟩, ⟨"B", 17/20⟩] := by
  norm_num [semanticSearchRows, c1Table, sortDesc, insertDesc, List.getD]

theorem c1_fulltext_rows_eval :
    fulltextSearchRows c1Table 10 = [⟨"B", 1⟩] := by
  norm_num [fulltextSearchRows, c1Table, sortDesc, insertDesc, List.getD]

theorem c1_combine_eval :
    clientCombine (fun sk : String => sk) (fun sk => sk)
        [⟨"A", 9/10⟩, ⟨"B", 17/20⟩] [⟨"B", 1⟩]
      = [⟨"A", 9/10, 0⟩, ⟨"B", 17/20, 1⟩] := by
  simp [clientCombine, allKeysOf, vectorMapOf, fulltextMapOf, mapSet,
    mapGet, mapKeys, dedupFirst, withIdx, mapIdx, List.find?]

theorem c1_norm_vector_eval :
    normalizeScores (fun q : Score => q)
        (vectorColumn [(⟨"A", 9/10, 0⟩ : Candidate String), ⟨"B", 17/20, 1⟩])
        ScoreNormalization.minMax = [1, 0] := by
  norm_num [normalizeScores, vectorColumn, mapIdx, listMax, listMin,
    max_def, min_def]
  all_goals decide

theorem c1_norm_bm25_eval :
    normalizeScores (fun q : Score => q)
        (bm25Column [(⟨"A", 9/10, 0⟩ : Candidate String), ⟨"B", 17/20, 1⟩])
        ScoreNormalization.minMax = [0, 1] := by
  norm_num [normalizeScores, bm25Column, mapIdx, listMax, listMin,
    max_def, min_def]

theorem c1_items_eval :
    hybridItems (fun q => q) ScoreNormalization.minMax (3/10) (7/10)
        [(⟨"A", 9/10, 0⟩ : Candidate String), ⟨"B", 17/20, 1⟩]
      = [⟨"A", 7/10, 0, 9/10⟩, ⟨"B", 3/10, 1, 17/20⟩] := by
  rw [hybridItems]
  rw [c1_norm_vector_eval, c1_norm_bm25_eval]
  norm_num [mapIdx, List.getD]

theorem c1_client_path_eval :
    hybridClientPath (fun q => q) (fun sk : String => sk) (fun sk => sk)
        c1Table ScoreNormalization.minMax (3/10) (7/10) (1/10) 5
      = [⟨"A", 7/10, 0, 9/10⟩, ⟨"B", 3/10, 1, 17/20⟩] := by
  rw [hybridClientPath, clientRank]
  rw [show (5 * 2 : Nat) = 10 from rfl]
  rw [c1_semantic_rows_eval, c1_fulltext_rows_eval, c1_combine_eval,
    c1_items_eval]
  norm_num [rankList, sortDesc, insertDesc]

/-- Claim C1 fails on the code: on `c1Table` with
`normalization = 'min-max'`, `alpha = 0.3`, `beta = 0.7`,
`threshold = 0.1`, `topK = 5` and identical underlying data, the
store-side fused path returns `["B", "A"]` (the SQL function normalizes
each column by DIVIDING BY ITS MAXIMUM, so `"B"` scores
`0.3·1 + 0.7·(0.85/0.9) = 173/180`) while the client-side path returns
`["A", "B"]` (true min-max normalization sends the vector column to
`[1, 0]`, so `"A"` scores `0.7` and `"B"` only `0.3`): different order,
different scores — the two paths are not equivalent. -/
theorem c1_path_equivalence_fails :
    (hybridStorePath c1Table (3/10) (7/10) (1/10) 5).map
        (fun it => it.data) = ["B", "A"]
      ∧ (hybridClientPath (fun q => q) (fun sk : String => sk) (fun sk => sk)
          c1Table ScoreNormalization.minMax (3/10) (7/10) (1/10) 5).map
          (fun it => it.data) = ["A", "B"]
      ∧ hybridStorePath c1Table (3/10) (7/10) (1/10) 5
          ≠ hybridClientPath (fun q => q) (fun sk : String => sk)
              (fun sk => sk) c1Table ScoreNormalization.minMax
              (3/10) (7/10) (1/10) 5 := by
  refine ⟨?_, ?_, ?_⟩
  · rw [c1_store_path_eval]
    rfl
  · rw [c1_client_path_eval]
    rfl
  · rw [c1_store_path_eval, c1_client_path_eval]
    intro h
    simp at h

end VectorPlugin
